import Mathlib

/-!
Shallow embedding of the Sharetape speech-to-text pipeline
(`sharetape.py`, `main.py`) and verification of the spec's claims.

Times (word start/end, cue times) are Python floats in the source; the
pipeline only copies and compares them (it performs no float arithmetic
on them), so they are modelled exactly as rationals.
-/

namespace Sharetape

/-- One word-timing entry from the recognizer JSON:
`{word, start, end, conf}`.  The source's `end` field is named `finish`
here because `end` is reserved in Lean. -/
structure WordEntry where
  word : String
  start : ℚ
  finish : ℚ
  conf : ℚ
deriving Repr, DecidableEq

instance : Inhabited WordEntry := ⟨⟨"", 0, 0, 0⟩⟩

/-- One cue built by `srt.Subtitle(index=..., content=..., start=..., end=...)`
(sharetape.py lines 149-154).  `finish` models the source's `end`. -/
structure Subtitle where
  index : Nat
  content : String
  start : ℚ
  finish : ℚ
deriving Repr, DecidableEq

/-- `WORDS_PER_LINE = 14` (sharetape.py line 136). -/
def WORDS_PER_LINE : Nat := 14

/-- Structural helper for `lineChunks`: the first argument is fuel
(one unit per produced window), sufficient whenever it is at least the
list's length. -/
def lineChunksFuel {α : Type} : Nat → List α → List (List α)
  | _, [] => []
  | 0, _ => []
  | Nat.succ n, xs =>
      xs.take WORDS_PER_LINE :: lineChunksFuel n (xs.drop WORDS_PER_LINE)

/-- The slicing `for j in range(0, len(words), WORDS_PER_LINE):
line = words[j : j + WORDS_PER_LINE]` (sharetape.py lines 147-148):
consecutive windows of `WORDS_PER_LINE` elements, the last possibly
shorter, none empty.  `lineChunks_nil` and `lineChunks_cons` below
recover the recurrence this computes. -/
def lineChunks {α : Type} (xs : List α) : List (List α) :=
  lineChunksFuel xs.length xs

/-- `" ".join([l["word"] for l in line])` (sharetape.py line 151). -/
def lineText (line : List WordEntry) : String :=
  " ".intercalate (line.map WordEntry.word)

/-- The `srt.Subtitle(...)` built for one `line` (sharetape.py lines 149-154):
`index=len(subs)`, `content=" ".join([l["word"] for l in line])`,
`start=line[0]["start"]`, `end=line[-1]["end"]`. -/
def mkSubtitle (idx : Nat) (line : List WordEntry) : Subtitle :=
  { index := idx
    content := lineText line
    start := (line.headD default).start
    finish := (line.getLastD default).finish }

/-- Mutable state of the assembly loop (sharetape.py lines 107, 137-138):
`subs`, `total_lines`, `total_words`. -/
structure BuildState where
  total_lines : List String
  total_words : List WordEntry
  subs : List Subtitle
deriving Repr, DecidableEq

/-- The body of the inner `for j in range(...)` loop for one `line`
(sharetape.py lines 147-156): append the new subtitle (whose index is
the current `len(subs)`) and its content. -/
def pushLine (st : BuildState) (line : List WordEntry) : BuildState :=
  let s := mkSubtitle st.subs.length line
  { st with total_lines := st.total_lines ++ [s.content]
            subs := st.subs ++ [s] }

/-- The body of the outer `for res in results` loop (sharetape.py lines
140-156).  A parsed result record is `none` when the JSON lacks a
`result` field (`if "result" not in jres: continue`), else
`some words`. -/
def pushRecord (st : BuildState) (res : Option (List WordEntry)) : BuildState :=
  match res with
  | none => st
  | some words =>
    let st1 := { st with total_words := st.total_words ++ words }
    (lineChunks words).foldl pushLine st1

/-- The transcript/subtitle assembly (sharetape.py lines 136-159), from
the parsed result records to
`(transcript, total_words, subs)`, where
`transcript = " ".join(total_lines)` and the cue list `subs` is what
`srt.compose` serializes 1:1 into the subtitle document. -/
def assemble (results : List (Option (List WordEntry))) :
    String × List WordEntry × List Subtitle :=
  let st := results.foldl pushRecord ⟨[], [], []⟩
  (" ".intercalate st.total_lines, st.total_words, st.subs)

/-- numpy `astype("int16")`: reduction modulo 2^16 into `[-32768, 32767]`. -/
def wrap16 (x : Int) : Int := (x + 32768) % 65536 - 32768

/-- numpy `astype("int32")` / int32 arithmetic: reduction modulo 2^32 into
`[-2^31, 2^31 - 1]`. -/
def wrap32 (x : Int) : Int := (x + 2147483648) % 4294967296 - 2147483648

/-- One sample of `((left_channel + right_channel) // 2).astype("int16")`
(sharetape.py line 86): the channels were first cast to int32
(lines 84-85), the sum is int32 arithmetic, `//` is numpy floor
division, and the result is cast back to int16. -/
def downmixSample (a b : Int) : Int := wrap16 (Int.fdiv (wrap32 (a + b)) 2)

/-- The stereo branch of the normalizer applied to the two channel
columns (sharetape.py lines 84-86). -/
def downmix (l r : List Int) : List Int := List.zipWith downmixSample l r

/-- The wave data returned by `scipy.io.wavfile.read` (sharetape.py
line 78): a 1-D array of samples for mono, a 2-D frames-by-channels
array otherwise. -/
inductive WavData where
  | mono (samples : List Int)
  | multi (frames : List (List Int))
deriving Repr, DecidableEq

/-- The mono conversion (sharetape.py lines 80-86) producing `mono_data`:
1-D data passes through (`astype("int16", copy=False)` is the identity
on int16 data); 2-D data is downmixed from columns `data[:, 0]` and
`data[:, 1]` only, whatever the channel count. -/
def normalizeMono : WavData → List Int
  | .mono samples => samples
  | .multi frames =>
      downmix (frames.map (fun f => f.getD 0 0)) (frames.map (fun f => f.getD 1 0))

/-- Header of the mono wave file reopened for Vosk (sharetape.py
line 92): `wf.getnchannels()`, `wf.getsampwidth()`, `wf.getcomptype()`. -/
structure MonoWav where
  nchannels : Nat
  sampwidth : Nat
  comptype : String
deriving Repr, DecidableEq

/-- The Python value bound to the second component of the triple returned
by `handle_speech_2_text`: the string `""` on the validation-failure
path (line 99), a list of word dicts on the normal path (line 161). -/
inductive WordsValue where
  | str (s : String)
  | arr (ws : List WordEntry)
deriving Repr, DecidableEq

/-- The Python value bound to the third component of that triple: the
string `""` on the validation-failure path, the `srt.compose(subs)`
document (serialized 1:1 from the cue list) on the normal path. -/
inductive SubsValue where
  | str (s : String)
  | doc (subs : List Subtitle)
deriving Repr, DecidableEq

/-- `handle_speech_2_text` (sharetape.py lines 75-161) after the mono
file has been written and reopened, parameterized by the reopened
file's header and by the parsed result records the recognizer would
emit for its frames.  The validation `if (wf.getnchannels() != 1 or
wf.getsampwidth() != 2 or wf.getcomptype() != "NONE")` returns
`("", "", "")` (lines 93-99); otherwise the assembly runs. -/
def handle_speech_2_text (wf : MonoWav)
    (results : List (Option (List WordEntry))) :
    String × WordsValue × SubsValue :=
  if wf.nchannels != 1 || wf.sampwidth != 2 || wf.comptype != "NONE" then
    ("", WordsValue.str "", SubsValue.str "")
  else
    let (t, ws, subs) := assemble results
    (t, WordsValue.arr ws, SubsValue.doc subs)

/-- Decimal rendering of a rational, as `json.dump` writes the float
time values. -/
def ratJson (q : ℚ) : String :=
  if q.den = 1 then toString q.num else toString q.num ++ "/" ++ toString q.den

/-- JSON rendering of one word dict. -/
def wordJson (w : WordEntry) : String :=
  "\x7b\"word\": \"" ++ w.word ++ "\", \"start\": " ++ ratJson w.start ++
    ", \"end\": " ++ ratJson w.finish ++ ", \"conf\": " ++ ratJson w.conf ++ "\x7d"

/-- The file content produced by `save_data` (sharetape.py lines 50-52),
i.e. `json.dump(data, json_file)`: a Python string is written as a JSON
string, a list of word dicts as a JSON array. -/
def save_data_content : WordsValue → String
  | .str s => "\"" ++ s ++ "\""
  | .arr ws => "[" ++ ", ".intercalate (ws.map wordJson) ++ "]"

/-- The three artifact file contents written unconditionally by
`extract_transcript` (sharetape.py lines 65-73): the transcript file,
the words file (via `save_data`), and the subtitles file. -/
def extract_transcript (wf : MonoWav)
    (results : List (Option (List WordEntry))) :
    String × String × SubsValue :=
  let (t, ws, sub) := handle_speech_2_text wf results
  (t, save_data_content ws, sub)

/-- A Python exception as seen by the `except TypeError` handler of
`_progress`: a `TypeError` or anything else. -/
inductive PyErr where
  | typeError
  | otherError (msg : String)
deriving Repr, DecidableEq

/-- A progress callback: its 4-argument call and the 3-argument call the
handler falls back to, each either returning or raising. -/
structure ProgressCb where
  call4 : String → Int → Int → String → Except PyErr Unit
  call3 : String → Int → Int → Except PyErr Unit

/-- `_progress` (sharetape.py lines 34-40): no-op without a callback;
otherwise call with 4 arguments and, only on a `TypeError`, retry with
3 arguments.  The result is `Except.error e` exactly when the Python
call would propagate exception `e` to the pipeline. -/
def _progress (cb : Option ProgressCb) (desc : String)
    (current total : Int) (unit : String) : Except PyErr Unit :=
  match cb with
  | none => .ok ()
  | some cb =>
    match cb.call4 desc current total unit with
    | .error .typeError => cb.call3 desc current total
    | r => r

/-- One step of the transcription loop's progress accounting
(sharetape.py line 122): `processed_frames = min(processed_frames +
frames_read, total_frames)`, reported after each chunk. -/
def reportsAux (total : Nat) (p : Nat) : List Nat → List Nat
  | [] => []
  | f :: fs =>
      let q := min (p + f) total
      q :: reportsAux total q fs

/-- The full sequence of `processedFrames` values reported during one
chunked run (sharetape.py lines 113, 123, 133): `0` before the loop,
the clamped running count after each chunk (`chunkFrames` lists each
iteration's `frames_read`), and `total_frames` after the loop. -/
def progressReports (chunkFrames : List Nat) (total : Nat) : List Nat :=
  0 :: (reportsAux total 0 chunkFrames ++ [total])

/-- Structural description of the cue list: one `mkSubtitle` per line,
indices counting up from `i`.  Proved equal to the `subs` list the
foldl of `assemble` builds. -/
def cuesFrom (i : Nat) : List (List WordEntry) → List Subtitle
  | [] => []
  | l :: ls => mkSubtitle i l :: cuesFrom (i + 1) ls

/-- All lines the assembly produces, per record in record order: the
14-word windows are taken within each record's word list. -/
def allLines (results : List (Option (List WordEntry))) :
    List (List WordEntry) :=
  ((results.filterMap id).map lineChunks).flatten

/-- Models the spec's `round_to_int16`: the integer average is the
rational value rounded down (floor, matching integer floor division),
confined to the signed 16-bit range. -/
def round_to_int16 (q : ℚ) : Int := max (-32768) (min 32767 ⌊q⌋)

/-- 3/10, i.e. 0.3 seconds, as a reduced fraction (the reduced form
lets the kernel evaluate it; `q3_10_eq` below identifies it with
`3/10`). -/
def q3_10 : ℚ := ⟨3, 10, by decide, by decide⟩

/-- 3/5, i.e. 0.6 seconds, as a reduced fraction. -/
def q3_5 : ℚ := ⟨3, 5, by decide, by decide⟩

/-- 7/5, i.e. 1.4 seconds, as a reduced fraction. -/
def q7_5 : ℚ := ⟨7, 5, by decide, by decide⟩

/-- Concrete word entries used by the witnesses and counterexamples
(the spec's §8 concrete scenario). -/
def wHi : WordEntry := ⟨"hi", 0, q3_10, 1⟩

def wThere : WordEntry := ⟨"there", q3_10, q3_5, 1⟩

def wFriend : WordEntry := ⟨"friend", 1, q7_5, 1⟩

/-- The spec's §8 concrete scenario: R1 with two words, R2 without a
`result` field, R3 with one word. -/
def scenarioRecords : List (Option (List WordEntry)) :=
  [some [wHi, wThere], none, some [wFriend]]

/-- Two result records of one word each: flattened length 2, but the
per-record windowing yields two lines. -/
def twoSingletonRecords : List (Option (List WordEntry)) :=
  [some [wHi], some [wThere]]

theorem lineChunksFuel_nil {α : Type} (n : Nat) :
    lineChunksFuel n ([] : List α) = [] := by
  cases n <;> rfl

theorem lineChunksFuel_congr {α : Type} (n : Nat) :
    ∀ (m : Nat) (xs : List α), xs.length ≤ n → xs.length ≤ m →
      lineChunksFuel n xs = lineChunksFuel m xs := by
  induction n with
  | zero =>
    intro m xs hn _
    have : xs = [] := List.eq_nil_of_length_eq_zero (by omega)
    subst this
    rw [lineChunksFuel_nil, lineChunksFuel_nil]
  | succ n ih =>
    intro m xs hn hm
    cases xs with
    | nil => rw [lineChunksFuel_nil, lineChunksFuel_nil]
    | cons x t =>
      cases m with
      | zero => simp at hm
      | succ m =>
        show (x :: t).take WORDS_PER_LINE ::
            lineChunksFuel n ((x :: t).drop WORDS_PER_LINE) = _
        rw [ih m ((x :: t).drop WORDS_PER_LINE)
          (by simp only [List.length_drop, List.length_cons, WORDS_PER_LINE] at *; omega)
          (by simp only [List.length_drop, List.length_cons, WORDS_PER_LINE] at *; omega)]
        rfl

theorem lineChunks_nil {α : Type} : lineChunks ([] : List α) = [] := rfl

theorem lineChunks_cons {α : Type} (xs : List α) (h : xs ≠ []) :
    lineChunks xs =
      xs.take WORDS_PER_LINE :: lineChunks (xs.drop WORDS_PER_LINE) := by
  cases xs with
  | nil => exact absurd rfl h
  | cons x t =>
    show (x :: t).take WORDS_PER_LINE ::
        lineChunksFuel t.length ((x :: t).drop WORDS_PER_LINE) = _
    rw [lineChunksFuel_congr t.length
      ((x :: t).drop WORDS_PER_LINE).length ((x :: t).drop WORDS_PER_LINE)
      (by simp only [List.length_drop, List.length_cons, WORDS_PER_LINE]; omega)
      (le_refl _)]
    rfl

theorem lineChunks_eq_nil_iff {α : Type} (xs : List α) :
    lineChunks xs = [] ↔ xs = [] := by
  constructor
  · intro hc
    by_contra hx
    rw [lineChunks_cons xs hx] at hc
    exact List.cons_ne_nil _ _ hc
  · intro hx
    subst hx
    exact lineChunks_nil

theorem lineChunks_flatten {α : Type} (xs : List α) :
    (lineChunks xs).flatten = xs := by
  by_cases h : xs = []
  · subst h
    simp [lineChunks_nil]
  · rw [lineChunks_cons xs h]
    have ih := lineChunks_flatten (xs.drop WORDS_PER_LINE)
    simp [List.flatten_cons, ih]
termination_by xs.length
decreasing_by
  have hpos : 0 < xs.length := List.length_pos.mpr h
  simp only [List.length_drop, WORDS_PER_LINE]
  omega

theorem lineChunks_length {α : Type} (xs : List α) :
    (lineChunks xs).length =
      (xs.length + (WORDS_PER_LINE - 1)) / WORDS_PER_LINE := by
  by_cases h : xs = []
  · subst h
    simp [lineChunks_nil, WORDS_PER_LINE]
  · rw [lineChunks_cons xs h]
    have ih := lineChunks_length (xs.drop WORDS_PER_LINE)
    have hpos : 0 < xs.length := List.length_pos.mpr h
    simp only [List.length_cons, List.length_drop, WORDS_PER_LINE] at ih ⊢
    rw [ih]
    omega
termination_by xs.length
decreasing_by
  have hpos : 0 < xs.length := List.length_pos.mpr h
  simp only [List.length_drop, WORDS_PER_LINE]
  omega

theorem ne_nil_of_mem_lineChunks {α : Type} (xs : List α) (l : List α)
    (hl : l ∈ lineChunks xs) : l ≠ [] := by
  by_cases h : xs = []
  · subst h
    rw [lineChunks_nil] at hl
    exact absurd hl (List.not_mem_nil l)
  · rw [lineChunks_cons xs h] at hl
    rcases List.mem_cons.mp hl with h1 | h2
    · subst h1
      simp only [Ne, List.take_eq_nil_iff, WORDS_PER_LINE]
      rintro (hc | hc)
      · exact absurd hc (by omega)
      · exact h hc
    · exact ne_nil_of_mem_lineChunks _ _ h2
termination_by xs.length
decreasing_by
  have hpos : 0 < xs.length := List.length_pos.mpr h
  simp only [List.length_drop, WORDS_PER_LINE]
  omega

theorem getLastD_indep {α : Type} (L : List α) (d1 d2 : α) (h : L ≠ []) :
    L.getLastD d1 = L.getLastD d2 := by
  cases L with
  | nil => exact absurd rfl h
  | cons a l => simp only [List.getLastD_cons]

theorem lineChunks_lastLine {α : Type} (xs : List α) (h : xs ≠ []) :
    ((lineChunks xs).getLastD []).length =
      if xs.length % WORDS_PER_LINE = 0 then WORDS_PER_LINE
      else xs.length % WORDS_PER_LINE := by
  rw [lineChunks_cons xs h]
  have hpos : 0 < xs.length := List.length_pos.mpr h
  by_cases hd : xs.drop WORDS_PER_LINE = []
  · have hle : xs.length ≤ WORDS_PER_LINE := List.drop_eq_nil_iff.mp hd
    rw [hd, lineChunks_nil, List.getLastD_cons, List.getLastD_nil,
      List.take_of_length_le hle]
    simp only [WORDS_PER_LINE] at hle ⊢
    split
    · omega
    · omega
  · have hgt : WORDS_PER_LINE < xs.length := by
      by_contra hc
      exact hd (List.drop_eq_nil_iff.mpr (by omega))
    have hne : lineChunks (xs.drop WORDS_PER_LINE) ≠ [] := by
      rw [Ne, lineChunks_eq_nil_iff]
      exact hd
    have ih := lineChunks_lastLine (xs.drop WORDS_PER_LINE) hd
    rw [List.getLastD_cons, getLastD_indep _ _ [] hne, ih]
    simp only [List.length_drop, WORDS_PER_LINE] at hgt ⊢
    split
    · split
      · rfl
      · omega
    · split
      · omega
      · omega
termination_by xs.length
decreasing_by
  simp only [List.length_drop, WORDS_PER_LINE]
  omega

theorem cuesFrom_length (i : Nat) (ls : List (List WordEntry)) :
    (cuesFrom i ls).length = ls.length := by
  induction ls generalizing i with
  | nil => rfl
  | cons l ls ih => simp [cuesFrom, ih]

theorem cuesFrom_append (i : Nat) (ls1 ls2 : List (List WordEntry)) :
    cuesFrom i (ls1 ++ ls2) =
      cuesFrom i ls1 ++ cuesFrom (i + ls1.length) ls2 := by
  induction ls1 generalizing i with
  | nil => simp [cuesFrom]
  | cons l ls ih =>
    rw [List.cons_append]
    show mkSubtitle i l :: cuesFrom (i + 1) (ls ++ ls2) = _
    rw [ih (i + 1), List.length_cons,
      show i + (ls.length + 1) = i + 1 + ls.length from by omega]
    rfl

theorem foldl_pushLine (lines : List (List WordEntry)) (st : BuildState) :
    lines.foldl pushLine st =
      { total_lines := st.total_lines ++ lines.map lineText
        total_words := st.total_words
        subs := st.subs ++ cuesFrom st.subs.length lines } := by
  induction lines generalizing st with
  | nil => simp [cuesFrom]
  | cons l ls ih =>
    rw [List.foldl_cons, ih]
    simp [pushLine, mkSubtitle, cuesFrom, List.append_assoc]

theorem foldl_pushRecord (results : List (Option (List WordEntry)))
    (st : BuildState) :
    results.foldl pushRecord st =
      { total_lines := st.total_lines ++ (allLines results).map lineText
        total_words := st.total_words ++ (results.filterMap id).flatten
        subs := st.subs ++ cuesFrom st.subs.length (allLines results) } := by
  induction results generalizing st with
  | nil => simp [allLines, cuesFrom]
  | cons r rs ih =>
    cases r with
    | none =>
      rw [List.foldl_cons, show pushRecord st none = st from rfl, ih]
      simp [allLines]
    | some words =>
      have hf : List.filterMap id (some words :: rs) =
          words :: List.filterMap id rs := by
        simp [List.filterMap_cons]
      rw [List.foldl_cons,
        show pushRecord st (some words) =
          (lineChunks words).foldl pushLine
            { st with total_words := st.total_words ++ words } from rfl,
        foldl_pushLine, ih]
      simp only [allLines, hf, List.map_cons, List.flatten_cons,
        List.map_append, List.append_assoc, List.flatten_append,
        List.length_append, cuesFrom_length, BuildState.mk.injEq,
        cuesFrom_append]

theorem assemble_transcript (results : List (Option (List WordEntry))) :
    (assemble results).1 = " ".intercalate ((allLines results).map lineText) := by
  unfold assemble
  rw [foldl_pushRecord]
  simp

theorem assemble_words (results : List (Option (List WordEntry))) :
    (assemble results).2.1 = (results.filterMap id).flatten := by
  unfold assemble
  rw [foldl_pushRecord]
  simp

theorem assemble_subs (results : List (Option (List WordEntry))) :
    (assemble results).2.2 = cuesFrom 0 (allLines results) := by
  unfold assemble
  rw [foldl_pushRecord]
  simp

theorem flatten_map_lineChunks (ws : List (List WordEntry)) :
    ((ws.map lineChunks).flatten).flatten = ws.flatten := by
  induction ws with
  | nil => simp
  | cons w ws ih =>
    simp [List.flatten_append, lineChunks_flatten, ih]

theorem allLines_flatten (results : List (Option (List WordEntry))) :
    (allLines results).flatten = (results.filterMap id).flatten :=
  flatten_map_lineChunks (results.filterMap id)

theorem ne_nil_of_mem_allLines (results : List (Option (List WordEntry)))
    (l : List WordEntry) (hl : l ∈ allLines results) : l ≠ [] := by
  rcases List.mem_flatten.mp hl with ⟨c, hc, hlc⟩
  rcases List.mem_map.mp hc with ⟨ws, _, hwc⟩
  subst hwc
  exact ne_nil_of_mem_lineChunks ws l hlc

/-- C8: the produced wordSequence is the concatenation, in record order,
of the word lists of exactly the records carrying a `result` field
(intra-record order preserved); a record without a `result` field is
skipped without affecting any other record's words. -/
theorem claim_C8_flattening (results : List (Option (List WordEntry))) :
    (assemble results).2.1 = (results.filterMap id).flatten
    ∧ ∀ pre post : List (Option (List WordEntry)),
        (assemble (pre ++ none :: post)).2.1 = (assemble (pre ++ post)).2.1 := by
  refine ⟨assemble_words results, fun pre post => ?_⟩
  rw [assemble_words, assemble_words]
  simp [List.filterMap_append, List.filterMap_cons]

/-- C1 fails on the code: the 14-word windowing is applied within each
record, not to the global flattened wordSequence.  Two records of one
word each flatten to M = 2 words, so the claim predicts
ceil(2/14) = 1 line, but the code produces 2 cues. -/
theorem claim_C1_counterexample :
    (assemble twoSingletonRecords).2.1.length = 2
    ∧ ((assemble twoSingletonRecords).2.1.length + (WORDS_PER_LINE - 1)) /
        WORDS_PER_LINE = 1
    ∧ (assemble twoSingletonRecords).2.2.length ≠ 1
    ∧ (assemble twoSingletonRecords).2.2.length = 2 := by decide

/-- C1 amended: grouping into lines of 14 words is per record.  The
number of TranscriptLine entries is the sum over result-carrying
records of ceil(m/14) for that record's word count m; within one
record's nonempty word list the line count is ceil(m/14), the last
line has length m mod 14 (or 14 when m is a multiple of 14), and no
empty line is ever produced. -/
theorem claim_C1_line_windowing (results : List (Option (List WordEntry)))
    (xs : List WordEntry) (h : xs ≠ []) :
    (assemble results).2.2.length =
      ((results.filterMap id).map
        (fun ws => (ws.length + (WORDS_PER_LINE - 1)) / WORDS_PER_LINE)).sum
    ∧ (lineChunks xs).length = (xs.length + (WORDS_PER_LINE - 1)) / WORDS_PER_LINE
    ∧ ((lineChunks xs).getLastD []).length =
        (if xs.length % WORDS_PER_LINE = 0 then WORDS_PER_LINE
         else xs.length % WORDS_PER_LINE)
    ∧ [] ∉ allLines results := by
  refine ⟨?_, lineChunks_length xs, lineChunks_lastLine xs h,
    fun hc => ne_nil_of_mem_allLines results [] hc rfl⟩
  rw [assemble_subs, cuesFrom_length, allLines, List.length_flatten,
    List.map_map]
  congr 1
  exact List.map_congr_left (fun ws _ => lineChunks_length ws)

theorem claim_C1_witness :
    [wHi, wThere] ≠ []
    ∧ ((assemble twoSingletonRecords).2.2.length =
        ((twoSingletonRecords.filterMap id).map
          (fun ws => (ws.length + (WORDS_PER_LINE - 1)) / WORDS_PER_LINE)).sum
      ∧ (lineChunks [wHi, wThere]).length =
          ([wHi, wThere].length + (WORDS_PER_LINE - 1)) / WORDS_PER_LINE
      ∧ ((lineChunks [wHi, wThere]).getLastD []).length =
          (if [wHi, wThere].length % WORDS_PER_LINE = 0 then WORDS_PER_LINE
           else [wHi, wThere].length % WORDS_PER_LINE)
      ∧ [] ∉ allLines twoSingletonRecords) :=
  ⟨by decide, claim_C1_line_windowing twoSingletonRecords [wHi, wThere] (by decide)⟩

/-- C2 fails on the code: in the §8 scenario the per-record windowing
produces two cues (one for R1's two words, one for R3's word), not a
single cue covering all three words. -/
theorem claim_C2_counterexample :
    (assemble scenarioRecords).2.2.length = 2
    ∧ (assemble scenarioRecords).2.2.length ≠ 1 := by decide

theorem q3_10_eq : q3_10 = 3 / 10 := by
  norm_num [q3_10, Rat.mk'_eq_divInt, Rat.divInt_eq_div]

theorem q3_5_eq : q3_5 = 3 / 5 := by
  norm_num [q3_5, Rat.mk'_eq_divInt, Rat.divInt_eq_div]

theorem q7_5_eq : q7_5 = 7 / 5 := by
  norm_num [q7_5, Rat.mk'_eq_divInt, Rat.divInt_eq_div]

/-- C2 amended: the scenario yields a wordSequence of 3 entries and
transcriptText "hi there friend", but the subtitle document holds two
cues: cue 0 "hi there" spanning 0.0s-0.6s and cue 1 "friend" spanning
1.0s-1.4s. -/
theorem claim_C2_scenario :
    (assemble scenarioRecords).2.1.length = 3
    ∧ (assemble scenarioRecords).1 = "hi there friend"
    ∧ (assemble scenarioRecords).2.2.map Subtitle.index = [0, 1]
    ∧ (assemble scenarioRecords).2.2.map Subtitle.content = ["hi there", "friend"]
    ∧ (assemble scenarioRecords).2.2.map Subtitle.start = [0, 1]
    ∧ (assemble scenarioRecords).2.2.map Subtitle.finish = [3 / 5, 7 / 5] := by
  refine ⟨by decide, by decide, by decide, by decide, by decide, ?_⟩
  have h : (assemble scenarioRecords).2.2.map Subtitle.finish = [q3_5, q7_5] := by
    decide
  rw [h, q3_5_eq, q7_5_eq]

theorem cuesFrom_map_index (i : Nat) (ls : List (List WordEntry)) :
    (cuesFrom i ls).map Subtitle.index = List.range' i ls.length := by
  induction ls generalizing i with
  | nil => rfl
  | cons l ls ih =>
    simp only [cuesFrom, List.map_cons, mkSubtitle, List.length_cons,
      List.range'_succ, ih]

theorem cuesFrom_map_start (i : Nat) (ls : List (List WordEntry)) :
    (cuesFrom i ls).map Subtitle.start =
      ls.map (fun l => (l.headD default).start) := by
  induction ls generalizing i with
  | nil => rfl
  | cons l ls ih => simp only [cuesFrom, List.map_cons, mkSubtitle, ih]

theorem headD_mem {α : Type} (l : List α) (d : α) (h : l ≠ []) :
    l.headD d ∈ l := by
  cases l with
  | nil => exact absurd rfl h
  | cons a t => exact List.mem_cons_self a t

/-- Heads of consecutive nonempty blocks of a start-sorted flattened
list are themselves start-sorted. -/
theorem chain_headD_start (ls : List (List WordEntry))
    (hne : ∀ l ∈ ls, l ≠ [])
    (hp : List.Pairwise (fun a b : WordEntry => a.start ≤ b.start) ls.flatten) :
    List.Chain' (· ≤ ·) (ls.map (fun l => (l.headD default).start)) := by
  induction ls with
  | nil => simp
  | cons l1 ls ih =>
    cases ls with
    | nil => simp
    | cons l2 rest =>
      rw [List.flatten_cons, List.pairwise_append] at hp
      refine List.chain'_cons.mpr ⟨?_, ?_⟩
      · have h1 : l1.headD default ∈ l1 :=
          headD_mem l1 default (hne l1 (List.mem_cons_self _ _))
        have h2 : l2.headD default ∈ (l2 :: rest).flatten :=
          List.mem_flatten.mpr ⟨l2, List.mem_cons_self _ _,
            headD_mem l2 default (hne l2 (by simp))⟩
        exact hp.2.2 _ h1 _ h2
      · exact ih (fun l hl => hne l (List.mem_cons_of_mem _ hl)) hp.2.1

/-- C9: for a document assembled from recognizer output whose flattened
word start times are non-decreasing, the cue indices are exactly
0, 1, ..., K-1 in order and the cue start times are non-decreasing. -/
theorem claim_C9_cue_invariants (results : List (Option (List WordEntry)))
    (hp : List.Pairwise (fun a b : WordEntry => a.start ≤ b.start)
      (assemble results).2.1) :
    (assemble results).2.2.map Subtitle.index =
      List.range (assemble results).2.2.length
    ∧ List.Chain' (· ≤ ·) ((assemble results).2.2.map Subtitle.start) := by
  rw [assemble_words] at hp
  rw [assemble_subs]
  constructor
  · rw [cuesFrom_map_index, cuesFrom_length, List.range_eq_range']
  · rw [cuesFrom_map_start]
    refine chain_headD_start (allLines results)
      (fun l hl => ne_nil_of_mem_allLines results l hl) ?_
    rw [allLines_flatten]
    exact hp

theorem claim_C9_witness :
    List.Pairwise (fun a b : WordEntry => a.start ≤ b.start)
      (assemble scenarioRecords).2.1
    ∧ ((assemble scenarioRecords).2.2.map Subtitle.index =
        List.range (assemble scenarioRecords).2.2.length
      ∧ List.Chain' (· ≤ ·) ((assemble scenarioRecords).2.2.map Subtitle.start)) :=
  ⟨by decide, claim_C9_cue_invariants scenarioRecords (by decide)⟩

theorem reportsAux_le_total (total : Nat) (fs : List Nat) :
    ∀ (p : Nat), p ≤ total → ∀ x ∈ reportsAux total p fs, x ≤ total := by
  induction fs with
  | nil =>
    intro p _ x hx
    exact absurd hx (List.not_mem_nil x)
  | cons f fs ih =>
    intro p hp x hx
    rcases List.mem_cons.mp hx with h1 | h2
    · subst h1
      exact Nat.min_le_right _ _
    · exact ih (min (p + f) total) (Nat.min_le_right _ _) x h2

theorem chain_reportsAux (total : Nat) (fs : List Nat) :
    ∀ (p : Nat), p ≤ total →
      List.Chain' (· ≤ ·) (p :: (reportsAux total p fs ++ [total])) := by
  induction fs with
  | nil =>
    intro p hp
    simp [reportsAux, List.chain'_cons, hp]
  | cons f fs ih =>
    intro p hp
    show List.Chain' (· ≤ ·)
      (p :: (min (p + f) total :: reportsAux total (min (p + f) total) fs ++ [total]))
    rw [List.cons_append, List.chain'_cons]
    exact ⟨Nat.le_min.mpr ⟨Nat.le_add_right p f, hp⟩,
      ih (min (p + f) total) (Nat.min_le_right _ _)⟩

/-- C7: over any chunked run, the reported processedFrames sequence is
non-decreasing, never exceeds totalFrames, and its final report equals
totalFrames. -/
theorem claim_C7_progress_monotone (chunkFrames : List Nat) (total : Nat) :
    List.Chain' (· ≤ ·) (progressReports chunkFrames total)
    ∧ (∀ x ∈ progressReports chunkFrames total, x ≤ total)
    ∧ (progressReports chunkFrames total).getLast? = some total := by
  refine ⟨chain_reportsAux total chunkFrames 0 (Nat.zero_le total), ?_, ?_⟩
  · intro x hx
    rcases List.mem_cons.mp hx with h1 | h2
    · subst h1
      exact Nat.zero_le total
    · rcases List.mem_append.mp h2 with h3 | h4
      · exact reportsAux_le_total total chunkFrames 0 (Nat.zero_le total) x h3
      · exact le_of_eq (List.mem_singleton.mp h4)
  · show (0 :: (reportsAux total 0 chunkFrames ++ [total])).getLast? = some total
    rw [show (0 :: (reportsAux total 0 chunkFrames ++ [total])) =
      (0 :: reportsAux total 0 chunkFrames) ++ [total] from by
        rw [List.cons_append]]
    exact List.getLast?_concat _

/-- C6 fails on the code: `_progress` catches only `TypeError`; a
callback raising any other exception propagates it to the pipeline. -/
theorem claim_C6_counterexample :
    _progress (some ⟨fun _ _ _ _ => Except.error (PyErr.otherError "boom"),
        fun _ _ _ => Except.ok ()⟩) "Transcribing" 0 1 "frames" =
      Except.error (PyErr.otherError "boom") := rfl

/-- C6 amended: `_progress` swallows only a `TypeError` raised by the
4-argument call, retrying with 3 arguments (whose outcome, including
any exception, is propagated); a non-`TypeError` exception from the
4-argument call propagates unchanged; a successful callback or an
absent callback never raises. -/
theorem claim_C6_exception_handling (cb : ProgressCb) (desc : String)
    (c t : Int) (u : String) :
    (∀ m, cb.call4 desc c t u = Except.error (PyErr.otherError m) →
        _progress (some cb) desc c t u = Except.error (PyErr.otherError m))
    ∧ (cb.call4 desc c t u = Except.error PyErr.typeError →
        _progress (some cb) desc c t u = cb.call3 desc c t)
    ∧ (cb.call4 desc c t u = Except.ok () →
        _progress (some cb) desc c t u = Except.ok ())
    ∧ _progress none desc c t u = Except.ok () := by
  refine ⟨fun m h => ?_, fun h => ?_, fun h => ?_, rfl⟩
  · simp [_progress, h]
  · simp [_progress, h]
  · simp [_progress, h]

theorem claim_C6_witness :
    _progress (some ⟨fun _ _ _ _ => Except.error PyErr.typeError,
        fun _ _ _ => Except.ok ()⟩) "Transcribing" 0 1 "frames" =
      (⟨fun _ _ _ _ => Except.error PyErr.typeError,
        fun _ _ _ => Except.ok ()⟩ : ProgressCb).call3 "Transcribing" 0 1 :=
  (claim_C6_exception_handling
    ⟨fun _ _ _ _ => Except.error PyErr.typeError, fun _ _ _ => Except.ok ()⟩
    "Transcribing" 0 1 "frames").2.1 rfl

/-- C10: when mono-format validation fails, `handle_speech_2_text`
returns `("", "", "")` whose word component is the Python string ""
rather than a list, and `extract_transcript` persists it, so the words
artifact holds the JSON-encoded string "" instead of a JSON array. -/
theorem claim_C10_string_artifact (wf : MonoWav)
    (results : List (Option (List WordEntry)))
    (h : (wf.nchannels != 1 || wf.sampwidth != 2 || wf.comptype != "NONE") = true) :
    handle_speech_2_text wf results = ("", WordsValue.str "", SubsValue.str "")
    ∧ (extract_transcript wf results).2.1 = "\"\""
    ∧ ∀ ws : List WordEntry, WordsValue.str "" ≠ WordsValue.arr ws := by
  have h1 : handle_speech_2_text wf results =
      ("", WordsValue.str "", SubsValue.str "") := by
    simp only [handle_speech_2_text, h, if_true]
  refine ⟨h1, ?_, fun ws hc => WordsValue.noConfusion hc⟩
  simp [extract_transcript, h1, save_data_content]

theorem claim_C10_witness :
    ((⟨1, 4, "NONE"⟩ : MonoWav).nchannels != 1
      || (⟨1, 4, "NONE"⟩ : MonoWav).sampwidth != 2
      || (⟨1, 4, "NONE"⟩ : MonoWav).comptype != "NONE") = true
    ∧ (handle_speech_2_text ⟨1, 4, "NONE"⟩ [] =
        ("", WordsValue.str "", SubsValue.str "")
      ∧ (extract_transcript ⟨1, 4, "NONE"⟩ []).2.1 = "\"\""
      ∧ ∀ ws : List WordEntry, WordsValue.str "" ≠ WordsValue.arr ws) :=
  ⟨by decide, claim_C10_string_artifact ⟨1, 4, "NONE"⟩ [] (by decide)⟩

/-- C3: the claim states the intended behavior (the spec documents the
reference behavior as an inconsistency): on a 2-channel mono stream no
exception is raised; `handle_speech_2_text` silently returns
`("", "", "")` and `extract_transcript` still writes all three
artifact files (empty transcript, the JSON string "" as word data,
empty subtitles). -/
theorem claim_C3_artifacts_still_written :
    handle_speech_2_text ⟨2, 2, "NONE"⟩ [] =
      ("", WordsValue.str "", SubsValue.str "")
    ∧ extract_transcript ⟨2, 2, "NONE"⟩ [] =
        ("", "\"\"", SubsValue.str "") := by decide

/-- C5 fails on the code: the normalization step has no validation and
no failure path; a 3-channel 16-bit input is downmixed from its first
two channels ((1 + 3) // 2 = 2), silently ignoring channel 2. -/
theorem claim_C5_counterexample :
    normalizeMono (WavData.multi [[1, 3, 100]]) = [2] := by decide

/-- C5 amended: normalization never fails with `FormatError` (no such
check exists); any 2-D input, whatever its channel count, is downmixed
using only columns 0 and 1 — channels beyond the first two are
ignored — and the output has one sample per input frame. -/
theorem claim_C5_no_validation (frames : List (List Int))
    (h : ∀ f ∈ frames, 2 ≤ f.length) :
    normalizeMono (WavData.multi frames) =
      normalizeMono (WavData.multi (frames.map (fun f => f.take 2)))
    ∧ (normalizeMono (WavData.multi frames)).length = frames.length := by
  constructor
  · simp only [normalizeMono, List.map_map, Function.comp_def]
    have h0 : frames.map (fun f => f.getD 0 0) =
        frames.map (fun f => (List.take 2 f).getD 0 0) := by
      refine List.map_congr_left (fun f hf => ?_)
      rcases f with _ | ⟨a, _ | ⟨b, rest⟩⟩
      · have := h _ hf
        simp at this
      · have := h _ hf
        simp at this
      · rfl
    have h1 : frames.map (fun f => f.getD 1 0) =
        frames.map (fun f => (List.take 2 f).getD 1 0) := by
      refine List.map_congr_left (fun f hf => ?_)
      rcases f with _ | ⟨a, _ | ⟨b, rest⟩⟩
      · have := h _ hf
        simp at this
      · have := h _ hf
        simp at this
      · rfl
    rw [← h0, ← h1]
  · simp only [normalizeMono, downmix, List.length_zipWith, List.length_map]
    omega

theorem claim_C5_witness :
    (∀ f ∈ [[(1 : Int), 3, 100]], 2 ≤ f.length)
    ∧ (normalizeMono (WavData.multi [[(1 : Int), 3, 100]]) =
        normalizeMono (WavData.multi ([[(1 : Int), 3, 100]].map (fun f => f.take 2)))
      ∧ (normalizeMono (WavData.multi [[(1 : Int), 3, 100]])).length =
          [[(1 : Int), 3, 100]].length) :=
  ⟨by decide, claim_C5_no_validation [[(1 : Int), 3, 100]] (by decide)⟩

theorem downmixSample_spec (a b : Int)
    (ha : -32768 ≤ a ∧ a ≤ 32767) (hb : -32768 ≤ b ∧ b ≤ 32767) :
    downmixSample a b = round_to_int16 (((a + b : Int) : ℚ) / 2)
    ∧ -32768 ≤ downmixSample a b ∧ downmixSample a b ≤ 32767 := by
  obtain ⟨ha1, ha2⟩ := ha
  obtain ⟨hb1, hb2⟩ := hb
  have hw32 : wrap32 (a + b) = a + b := by
    unfold wrap32
    rw [Int.emod_eq_of_lt (by omega) (by omega)]
    omega
  have hfd : Int.fdiv (a + b) 2 = (a + b) / 2 :=
    Int.fdiv_eq_ediv _ (by norm_num)
  have hw16 : wrap16 ((a + b) / 2) = (a + b) / 2 := by
    unfold wrap16
    rw [Int.emod_eq_of_lt (by omega) (by omega)]
    omega
  have hds : downmixSample a b = (a + b) / 2 := by
    unfold downmixSample
    rw [hw32, hfd, hw16]
  have hfloor : ⌊((a + b : Int) : ℚ) / 2⌋ = (a + b) / 2 := by
    rw [show ((2 : ℚ)) = ((2 : Nat) : ℚ) from by norm_num,
      Rat.floor_intCast_div_natCast]
    norm_num
  rw [hds]
  refine ⟨?_, by omega, by omega⟩
  unfold round_to_int16
  rw [hfloor]
  omega

/-- C4: for 16-bit inputs, each downmixed sample is the rounded-down
average `round_to_int16((L[i]+R[i])/2)`, always within the signed
16-bit range (no overflow), including at the extreme
`L[i] = R[i] = 32767`. -/
theorem claim_C4_downmix (l r : List Int)
    (hl : ∀ x ∈ l, -32768 ≤ x ∧ x ≤ 32767)
    (hr : ∀ x ∈ r, -32768 ≤ x ∧ x ≤ 32767) :
    (∀ (i : Nat) (h1 : i < l.length) (h2 : i < r.length),
        ∃ h : i < (downmix l r).length,
          (downmix l r).get ⟨i, h⟩ =
            round_to_int16 (((l.get ⟨i, h1⟩ + r.get ⟨i, h2⟩ : Int) : ℚ) / 2)
          ∧ -32768 ≤ (downmix l r).get ⟨i, h⟩
          ∧ (downmix l r).get ⟨i, h⟩ ≤ 32767)
    ∧ downmixSample 32767 32767 = 32767 := by
  refine ⟨fun i h1 h2 => ?_, by decide⟩
  have hlen : i < (downmix l r).length := by
    simp only [downmix, List.length_zipWith]
    omega
  refine ⟨hlen, ?_⟩
  have hget : (downmix l r).get ⟨i, hlen⟩ =
      downmixSample (l.get ⟨i, h1⟩) (r.get ⟨i, h2⟩) := by
    simp only [downmix, List.get_eq_getElem, List.getElem_zipWith]
  rw [hget]
  exact downmixSample_spec _ _ (hl _ (List.get_mem l i h1))
    (hr _ (List.get_mem r i h2))

theorem claim_C4_witness :
    (∀ x ∈ [(32767 : Int)], -32768 ≤ x ∧ x ≤ 32767)
    ∧ downmixSample 32767 32767 = 32767 :=
  ⟨by decide, (claim_C4_downmix [32767] [32767] (by decide) (by decide)).2⟩

end Sharetape
